import Mathlib

/-!
# Verification of the warzone-osm-mapmaker core

Shallow embedding of the core algorithms of the `warzone-osm-mapmaker`
repository, together with theorems settling the specification claims:

* `UndirectedGraph` and its operations, from
  `src/main/model/graph/undirected_graph.hpp`;
* the army/balance calculator, from `src/main/mapmaker/calculator.hpp`;
* the segment side test (`distance`) and the segment intersection test
  (`intersect`) of the sweep validator, and the pole-of-inaccessibility
  search (`polylabel`), from `src/main/functions/detail/polylabel.hpp`.

Machine integers (`size_t`, vertex ids) are modelled as `ℕ`/`ℤ`; `double`
arithmetic is modelled exactly over `ℚ` (the constant `std::sqrt(2)` is the
exact rational value of that `double`).
-/

/- ## Undirected graph (src/main/model/graph/undirected_graph.hpp)

`m_edges` is a `std::set<edge_type>` of vertex pairs ordered
lexicographically; the undirected graph stores every inserted edge in both
directions.  `m_vertices` is tracked as the maximal referenced vertex id
plus one. -/

structure UndirectedGraph where
  edges : Finset (ℕ × ℕ)
  vertices : ℕ
deriving DecidableEq

def UndirectedGraph.empty : UndirectedGraph := ⟨∅, 0⟩

/-- `UndirectedGraph::reverse`: swap source and target of an edge. -/
def reverseEdge (e : ℕ × ℕ) : ℕ × ℕ := (e.2, e.1)

/-- `UndirectedGraph::insert_edge`: insert the edge and its reverse into
`m_edges`, and raise `m_vertices` to `max` of the endpoint ids plus one. -/
def insert_edge (g : UndirectedGraph) (e : ℕ × ℕ) : UndirectedGraph :=
  { edges := insert (reverseEdge e) (insert e g.edges)
    vertices := max (max g.vertices (e.1 + 1)) (e.2 + 1) }

/-- `UndirectedGraph::contains_edge`: membership in `m_edges`. -/
def contains_edge (g : UndirectedGraph) (e : ℕ × ℕ) : Bool :=
  decide (e ∈ g.edges)

/-- `UndirectedGraph::edge_count`: stored pair count halved
(`m_edges.size() / 2`, integer division). -/
def edge_count (g : UndirectedGraph) : ℕ :=
  g.edges.card / 2

/-- `UndirectedGraph::degree`: the number of stored edges whose source is
`vertex` (the range `[lower_edge_bound, upper_edge_bound)` of the ordered
edge set contains exactly the pairs with first component `vertex`). -/
def degree (g : UndirectedGraph) (vertex : ℕ) : ℕ :=
  (g.edges.filter (fun e => e.1 = vertex)).card

/-- `UndirectedGraph::adjacents`: iterate the range
`[lower_edge_bound, upper_edge_bound)` of the lexicographically ordered
edge set — i.e. all stored pairs with first component `vertex`, in
increasing order of second component — collecting the second components. -/
def adjacents (g : UndirectedGraph) (vertex : ℕ) : List ℕ :=
  ((g.edges.filter (fun e => e.1 = vertex)).image Prod.snd).sort (· ≤ ·)

/-- Build a graph by a sequence of `insert_edge` calls starting from the
fresh (default-constructed) graph. -/
def buildGraph (es : List (ℕ × ℕ)) : UndirectedGraph :=
  es.foldl insert_edge UndirectedGraph.empty

/- Helper lemmas about `adjacents`. -/

theorem mem_adjacents_iff (g : UndirectedGraph) (v w : ℕ) :
    w ∈ adjacents g v ↔ (v, w) ∈ g.edges := by
  unfold adjacents
  rw [Finset.mem_sort, Finset.mem_image]
  constructor
  · rintro ⟨e, he, rfl⟩
    rw [Finset.mem_filter] at he
    rw [← he.2, Prod.mk.eta]
    exact he.1
  · intro h
    exact ⟨(v, w), Finset.mem_filter.mpr ⟨h, rfl⟩, rfl⟩

theorem adjacents_sorted_lt (g : UndirectedGraph) (v : ℕ) :
    (adjacents g v).Sorted (· < ·) := by
  unfold adjacents
  have hs : ((g.edges.filter (fun e => e.1 = v)).image Prod.snd).sort (· ≤ ·)
      |>.Sorted (· ≤ ·) := Finset.sort_sorted _ _
  have hn : ((g.edges.filter (fun e => e.1 = v)).image Prod.snd).sort (· ≤ ·)
      |>.Nodup := Finset.sort_nodup _ _
  exact hs.lt_of_le hn

/-- **C8** — For every undirected graph and every vertex `v` that is not an
endpoint of any stored edge, `degree(v)` returns `0` and `adjacents(v)`
returns the empty sequence (both operations are total; no failure path). -/
theorem degree_adjacents_absent_vertex (g : UndirectedGraph) (v : ℕ)
    (h : ∀ e ∈ g.edges, e.1 ≠ v ∧ e.2 ≠ v) :
    degree g v = 0 ∧ adjacents g v = [] := by
  have hfilter : g.edges.filter (fun e => e.1 = v) = ∅ := by
    apply Finset.filter_eq_empty_iff.mpr
    intro e he
    exact (h e he).1
  constructor
  · unfold degree
    rw [hfilter]
    rfl
  · unfold adjacents
    rw [hfilter]
    simp

/-- Witness for C8: in the graph built from the single edge `(0, 1)`, the
vertex `5` is not an endpoint of any stored edge, and both queries return
empty results. -/
theorem degree_adjacents_absent_vertex_witness :
    degree (buildGraph [(0, 1)]) 5 = 0 ∧ adjacents (buildGraph [(0, 1)]) 5 = [] :=
  degree_adjacents_absent_vertex (buildGraph [(0, 1)]) 5 (by decide)

/-- **C10** — For every undirected graph and every vertex `v`, the sequence
returned by `adjacents(v)` is strictly increasing (hence lists each
neighbor exactly once), and its members are exactly the stored neighbors
of `v`. -/
theorem adjacents_strictly_increasing (g : UndirectedGraph) (v : ℕ) :
    (adjacents g v).Sorted (· < ·) ∧
      ∀ w, w ∈ adjacents g v ↔ (v, w) ∈ g.edges :=
  ⟨adjacents_sorted_lt g v, fun w => mem_adjacents_iff g v w⟩

/- ## C3: graph invariants under sequences of insertions -/

/-- The unordered pair underlying an edge, normalized as (min, max). -/
def normPair (e : ℕ × ℕ) : ℕ × ℕ := (min e.1 e.2, max e.1 e.2)

/-- The two stored directed edges representing one unordered pair. -/
def pairEdges (p : ℕ × ℕ) : Finset (ℕ × ℕ) := {(p.1, p.2), (p.2, p.1)}

/-- Representation invariant: the stored edge set of `g` is exactly the
two-directional image of a set `P` of normalized non-loop pairs. -/
def GraphRepr (g : UndirectedGraph) (P : Finset (ℕ × ℕ)) : Prop :=
  (∀ p ∈ P, p.1 < p.2) ∧ g.edges = P.biUnion pairEdges

theorem pairEdges_normPair (e : ℕ × ℕ) :
    pairEdges (normPair e) = ({(e.1, e.2), (e.2, e.1)} : Finset (ℕ × ℕ)) := by
  rcases le_total e.1 e.2 with h | h
  · simp [pairEdges, normPair, min_eq_left h, max_eq_right h]
  · simp [pairEdges, normPair, min_eq_right h, max_eq_left h, Finset.pair_comm]

theorem graphRepr_insert (g : UndirectedGraph) (P : Finset (ℕ × ℕ))
    (hr : GraphRepr g P) (e : ℕ × ℕ) (hne : e.1 ≠ e.2) :
    GraphRepr (insert_edge g e) (insert (normPair e) P) := by
  obtain ⟨hlt, hrep⟩ := hr
  constructor
  · intro p hp
    rw [Finset.mem_insert] at hp
    rcases hp with rfl | hp
    · rcases lt_or_gt_of_ne hne with h | h
      · simpa [normPair, min_eq_left h.le, max_eq_right h.le] using h
      · simpa [normPair, min_eq_right h.le, max_eq_left h.le] using h
    · exact hlt p hp
  · show insert (reverseEdge e) (insert e g.edges) = _
    rw [Finset.biUnion_insert, pairEdges_normPair, hrep]
    ext a
    simp only [Finset.mem_insert, Finset.mem_union, Finset.mem_singleton,
      reverseEdge, Prod.mk.eta]
    tauto

theorem graphRepr_card (P : Finset (ℕ × ℕ)) (hlt : ∀ p ∈ P, p.1 < p.2) :
    (P.biUnion pairEdges).card = 2 * P.card := by
  rw [Finset.card_biUnion]
  · have h2 : ∀ p ∈ P, (pairEdges p).card = 2 := by
      intro p hp
      have hne : (p.1, p.2) ≠ (p.2, p.1) := by
        intro h
        rw [Prod.mk.injEq] at h
        exact absurd (h.1 ▸ hlt p hp) (lt_irrefl _)
      rw [pairEdges, Finset.card_insert_of_not_mem (by simpa using hne),
        Finset.card_singleton]
    rw [Finset.sum_congr rfl h2, Finset.sum_const, smul_eq_mul, mul_comm]
  · intro x hx y hy hxy
    rw [Finset.disjoint_left]
    intro a hax hay
    rw [pairEdges, Finset.mem_insert, Finset.mem_singleton] at hax hay
    have hx2 := hlt x hx
    have hy2 := hlt y hy
    rcases hax with rfl | rfl <;> rcases hay with h | h <;>
      rw [Prod.mk.injEq] at h
    · exact hxy (Prod.ext h.1 h.2)
    · rw [h.1, h.2] at hx2
      exact absurd (hx2.trans hy2) (lt_irrefl _)
    · rw [← h.1, ← h.2] at hy2
      exact absurd (hx2.trans hy2) (lt_irrefl _)
    · exact hxy (Prod.ext h.2 h.1)

theorem graphRepr_fold : ∀ (es : List (ℕ × ℕ)) (g : UndirectedGraph)
    (P : Finset (ℕ × ℕ)), GraphRepr g P → (∀ e ∈ es, e.1 ≠ e.2) →
    GraphRepr (es.foldl insert_edge g) (P ∪ (es.map normPair).toFinset)
  | [], g, P, hr, _ => by simpa using hr
  | e :: es, g, P, hr, hne => by
    have h1 : GraphRepr (insert_edge g e) (insert (normPair e) P) :=
      graphRepr_insert g P hr e (hne e (List.mem_cons_self e es))
    have h2 := graphRepr_fold es (insert_edge g e) (insert (normPair e) P) h1
      (fun f hf => hne f (List.mem_cons_of_mem e hf))
    have heq : insert (normPair e) P ∪ (es.map normPair).toFinset =
        P ∪ ((e :: es).map normPair).toFinset := by
      rw [List.map_cons, List.toFinset_cons, Finset.union_insert,
        Finset.insert_union]
    rwa [heq] at h2

/-- The stored edge set is swap-closed after any sequence of insertions. -/
theorem foldl_edges_symm : ∀ (es : List (ℕ × ℕ)) (g : UndirectedGraph),
    (∀ a b : ℕ, (a, b) ∈ g.edges ↔ (b, a) ∈ g.edges) →
    ∀ a b : ℕ, (a, b) ∈ (es.foldl insert_edge g).edges ↔
      (b, a) ∈ (es.foldl insert_edge g).edges
  | [], _, hs => hs
  | e :: es, g, hs => by
    apply foldl_edges_symm es (insert_edge g e)
    intro a b
    show (a, b) ∈ insert (reverseEdge e) (insert e g.edges) ↔
      (b, a) ∈ insert (reverseEdge e) (insert e g.edges)
    cases e with
    | mk u v =>
      simp only [reverseEdge, Finset.mem_insert, Prod.mk.injEq]
      rw [hs a b]
      tauto

/-- Both directions of every inserted edge are stored. -/
theorem foldl_edges_mem : ∀ (es : List (ℕ × ℕ)) (g : UndirectedGraph),
    ∀ e ∈ es, e ∈ (es.foldl insert_edge g).edges ∧
      reverseEdge e ∈ (es.foldl insert_edge g).edges
  | [], _, e, he => absurd he (List.not_mem_nil e)
  | f :: es, g, e, he => by
    have hmono : ∀ (es : List (ℕ × ℕ)) (g : UndirectedGraph) (x : ℕ × ℕ),
        x ∈ g.edges → x ∈ (es.foldl insert_edge g).edges := by
      intro es
      induction es with
      | nil => intro g x hx; exact hx
      | cons f es ih =>
        intro g x hx
        exact ih (insert_edge g f) x
          (Finset.mem_insert_of_mem (Finset.mem_insert_of_mem hx))
    rcases List.mem_cons.mp he with rfl | he
    · constructor
      · exact hmono es (insert_edge g e) e
          (Finset.mem_insert_of_mem (Finset.mem_insert_self e g.edges))
      · exact hmono es (insert_edge g e) (reverseEdge e)
          (Finset.mem_insert_self (reverseEdge e) _)
    · exact foldl_edges_mem es (insert_edge g f) e he

/-- **C3 counterexample** — the claim fails on self-loop edges: inserting
the single self-loop `(0, 0)` stores one directed edge, so `edge_count`
(stored count halved with integer division) reports `0`, while one
distinct unordered pair was inserted. -/
theorem edge_count_self_loop_counterexample :
    ¬ (edge_count (buildGraph [(0, 0)]) =
        (([(0, 0)] : List (ℕ × ℕ)).map normPair).dedup.length) := by
  decide

/-- **C3 (amended)** — For every sequence of `insert_edge` calls on the
undirected graph: both directions of every inserted edge are contained
afterwards; adjacency is symmetric; and, provided no inserted edge is a
self-loop, `edge_count()` equals the number of distinct unordered pairs
inserted. -/
theorem insert_edge_invariants (es : List (ℕ × ℕ)) :
    (∀ e ∈ es, contains_edge (buildGraph es) e = true ∧
      contains_edge (buildGraph es) (reverseEdge e) = true) ∧
    (∀ u v : ℕ, v ∈ adjacents (buildGraph es) u ↔
      u ∈ adjacents (buildGraph es) v) ∧
    ((∀ e ∈ es, e.1 ≠ e.2) →
      edge_count (buildGraph es) = ((es.map normPair).dedup).length) := by
  refine ⟨?_, ?_, ?_⟩
  · intro e he
    have h := foldl_edges_mem es UndirectedGraph.empty e he
    exact ⟨decide_eq_true h.1, decide_eq_true h.2⟩
  · intro u v
    have hsym := foldl_edges_symm es UndirectedGraph.empty
      (by intro a b; simp [UndirectedGraph.empty]) u v
    rw [mem_adjacents_iff, mem_adjacents_iff]
    exact hsym
  · intro hne
    have hr : GraphRepr UndirectedGraph.empty ∅ := by
      constructor
      · intro p hp; exact absurd hp (Finset.not_mem_empty p)
      · simp [UndirectedGraph.empty]
    have h := graphRepr_fold es UndirectedGraph.empty ∅ hr hne
    rw [Finset.empty_union] at h
    show (List.foldl insert_edge UndirectedGraph.empty es).edges.card / 2 = _
    rw [h.2, graphRepr_card _ h.1, Nat.mul_div_cancel_left _ (by norm_num),
      List.card_toFinset]

/- ## Army calculator (src/main/mapmaker/calculator.hpp)

`ArmyCalculator::get_score` computes
`TERRITORY_WEIGHT * (territories / m_territories.size()) +
 OUTER_WEIGHT * std::min(0.5 * connections / territories, 1.0)`.
Both `territories` and `m_territories.size()` are `size_t`, so the first
quotient is C++ integer division; the second quotient is `double`
division.  `double` arithmetic is modelled exactly over `ℚ`. -/

/-- The rounding the spec claims (`round half away from zero`), used to
state the claimed army formula for comparison with the code. -/
def roundHalfAway (q : ℚ) : ℤ :=
  if 0 ≤ q then ⌊q + 1 / 2⌋ else -⌊-q + 1 / 2⌋

/-- The arithmetic actually performed by
`std::round<int>(score * max_armies)` in the source: the explicit
template argument selects the integral-argument overload of
`std::round`, so the `double` argument is first converted to `int` —
truncation toward zero — and `round` is then the identity on that
integer. -/
def truncTowardZero (q : ℚ) : ℤ :=
  if 0 ≤ q then ⌊q⌋ else ⌈q⌉

/-- `ArmyCalculator::get_score` — note the integer division
`territories / total` (both are `size_t` in the source). -/
def get_score (total territories connections : ℕ) : ℚ :=
  (1 / 2) * ((territories / total : ℕ) : ℚ) +
    (1 / 2) * min ((1 / 2) * (connections : ℚ) / (territories : ℚ)) 1

/-- The `children` id set of a bonus (`std::set<object_id_type> children`
built from the bonus' child refs). -/
def bonus_children_set (children : List ℕ) : Finset ℕ := children.toFinset

/-- The `adjacents` id set of a bonus: the union of the graph `adjacents`
of all children (`adjacents.insert(neighbor)` over all neighbors). -/
def bonus_adjacents_set (g : UndirectedGraph) (children : List ℕ) :
    Finset ℕ :=
  children.foldl
    (fun acc c => acc ∪ (g.edges.filter (fun e => e.1 = c)).image Prod.snd) ∅

theorem bonus_adjacents_set_eq_adjacents (g : UndirectedGraph)
    (children : List ℕ) :
    bonus_adjacents_set g children =
      children.foldl (fun acc c => acc ∪ (adjacents g c).toFinset) ∅ := by
  unfold bonus_adjacents_set adjacents
  congr 1
  funext acc c
  rw [Finset.sort_toFinset]

/-- The per-bonus body of `ArmyCalculator::calculate_armies`: compute the
children set, the neighbor union, the outer adjacents
(`set_difference`), the score, and
`bonus.armies() = std::max((army_type) std::round<int>(score * max_armies),
min_armies)` — the `std::round<int>` call truncates the `double` toward
zero (see `truncTowardZero`). -/
def bonus_armies (g : UndirectedGraph) (total : ℕ)
    (min_armies max_armies : ℤ) (children : List ℕ) : ℤ :=
  let cs := bonus_children_set children
  let outer := bonus_adjacents_set g children \ cs
  let score := get_score total cs.card outer.card
  max (truncTowardZero (score * (max_armies : ℚ))) min_armies

/-- `ArmyCalculator::calculate_armies` over a list of bonuses. -/
def calculate_armies (g : UndirectedGraph) (total : ℕ)
    (min_armies max_armies : ℤ) (bonuses : List (List ℕ)) : List ℤ :=
  bonuses.map (bonus_armies g total min_armies max_armies)

/-- Modelled from the spec: the claimed score formula
`0.5 * (|children| / total_vertex_count) +
 0.5 * min(0.5 * |outer_adjacents| / |children|, 1.0)` read as a
real-number (rational) expression, i.e. with exact division in the first
term. -/
def get_score_spec (total territories connections : ℕ) : ℚ :=
  (1 / 2) * ((territories : ℚ) / (total : ℚ)) +
    (1 / 2) * min ((1 / 2) * (connections : ℚ) / (territories : ℚ)) 1

/-- The end-to-end example graph of the spec:
vertices `{0,…,4}`, edges `{(0,1),(1,2),(2,3),(3,4),(4,0),(0,2)}`. -/
def exampleGraph : UndirectedGraph :=
  buildGraph [(0, 1), (1, 2), (2, 3), (3, 4), (4, 0), (0, 2)]

theorem example_cards_children : (bonus_children_set [0, 1]).card = 2 := by
  decide

theorem example_cards_outer :
    (bonus_adjacents_set exampleGraph [0, 1] \
      bonus_children_set [0, 1]).card = 2 := by
  decide

theorem example_score_eq : get_score 5 2 2 = 1 / 4 := by
  unfold get_score
  norm_num [min_def]

/-- On the example, the code's army value: the score is `1/4` (integer
division kills the first term) and `std::round<int>(2.5)` truncates to
`2`. -/
theorem example_army_eq : bonus_armies exampleGraph 5 1 10 [0, 1] = 2 := by
  show max (truncTowardZero (get_score 5 (bonus_children_set [0, 1]).card
    ((bonus_adjacents_set exampleGraph [0, 1] \
      bonus_children_set [0, 1]).card) * ((10 : ℤ) : ℚ))) 1 = 2
  rw [example_cards_children, example_cards_outer, example_score_eq]
  have h : ((1 / 4 : ℚ) * ((10 : ℤ) : ℚ)) = 5 / 2 := by norm_num
  rw [h]
  unfold truncTowardZero
  rw [if_pos (by norm_num)]
  norm_num

/-- On the example, the value of the claimed formula
`max(round(score * max_armies), min_armies)` with the code's score and
round-half-away-from-zero. -/
theorem example_claimed_army_eq :
    max (roundHalfAway (get_score 5 2 2 * ((10 : ℤ) : ℚ))) 1 = 3 := by
  rw [example_score_eq]
  unfold roundHalfAway
  rw [if_pos (by norm_num)]
  have h : ((1 / 4 : ℚ) * ((10 : ℤ) : ℚ) + 1 / 2) = 3 := by norm_num
  rw [h]
  norm_num

/-- **C1** — On the spec's end-to-end example (group `{0,1}`,
`total_vertex_count = 5`, `min = 1`, `max = 10`) the code computes score
`1/4` and army `2`: `territories / m_territories.size()` is `size_t`
integer division and yields `0`, and `std::round<int>` truncates
`1/4 * 10 = 2.5` toward zero; the claimed real-number formula yields
score `9/20` and army `5`. -/
theorem army_example_divergence :
    bonus_armies exampleGraph 5 1 10 [0, 1] = 2 ∧
    get_score 5 2 2 = 1 / 4 ∧
    get_score_spec 5 2 2 = 9 / 20 ∧
    max (roundHalfAway (get_score_spec 5 2 2 * 10)) 1 = 5 := by
  have hspec : get_score_spec 5 2 2 = 9 / 20 := by
    unfold get_score_spec
    norm_num [min_def]
  refine ⟨example_army_eq, example_score_eq, hspec, ?_⟩
  rw [hspec]
  unfold roundHalfAway
  rw [if_pos (by norm_num)]
  have h : (9 / 20 * 10 + 1 / 2 : ℚ) = 5 := by norm_num
  rw [h]
  norm_num

theorem get_score_nonneg (total territories connections : ℕ) :
    0 ≤ get_score total territories connections := by
  unfold get_score
  have h1 : (0 : ℚ) ≤ ((territories / total : ℕ) : ℚ) := Nat.cast_nonneg _
  have h2 : (0 : ℚ) ≤
      min ((1 / 2) * (connections : ℚ) / (territories : ℚ)) 1 := by
    apply le_min
    · apply div_nonneg
      · positivity
      · exact Nat.cast_nonneg _
    · norm_num
  nlinarith

theorem get_score_le_one (total territories connections : ℕ)
    (hc : territories ≤ total) :
    get_score total territories connections ≤ 1 := by
  unfold get_score
  have h1 : territories / total ≤ 1 := by
    calc territories / total ≤ total / total := Nat.div_le_div_right hc
    _ ≤ 1 := by
      rcases Nat.eq_zero_or_pos total with h | h
      · simp [h]
      · rw [Nat.div_self h]
  have h1q : ((territories / total : ℕ) : ℚ) ≤ 1 := by
    exact_mod_cast h1
  have h2 : min ((1 / 2) * (connections : ℚ) / (territories : ℚ)) 1 ≤ 1 :=
    min_le_right _ _
  nlinarith

/-- **C6 counterexample** — On the example group (`{0,1}` on the example
graph, `total = 5`, bounds `[1, 10]`, so `score * max_armies = 2.5`), the
code's army value is `2` (the explicit template argument of
`std::round<int>` converts the `double` to `int`, truncating toward
zero, before rounding), while `max(round(score * max_armies),
min_armies)` with round-half-away-from-zero rounding is `3`: the claimed
equality is false of the code. -/
theorem bonus_armies_round_counterexample :
    ¬ (bonus_armies exampleGraph 5 1 10 [0, 1] =
        max (roundHalfAway (get_score 5 (bonus_children_set [0, 1]).card
          ((bonus_adjacents_set exampleGraph [0, 1] \
            bonus_children_set [0, 1]).card) * ((10 : ℤ) : ℚ))) 1) := by
  rw [example_cards_children, example_cards_outer, example_army_eq,
    example_claimed_army_eq]
  decide

/-- **C6 (amended)** — For every bonus group with a non-empty child list,
`0 ≤ min_armies ≤ max_armies` and at most `total` distinct children, the
computed army value lies in `[min_armies, max_armies]` and equals
`max(trunc(score * max_armies), min_armies)`, where `trunc` is the
truncation toward zero performed by the `double`-to-`int` conversion
inside `std::round<int>`. -/
theorem bonus_armies_bounds (g : UndirectedGraph) (total : ℕ)
    (min_armies max_armies : ℤ) (children : List ℕ)
    (h0 : 0 ≤ min_armies) (h1 : min_armies ≤ max_armies)
    (hc : (bonus_children_set children).card ≤ total)
    (_hne : children ≠ []) :
    min_armies ≤ bonus_armies g total min_armies max_armies children ∧
    bonus_armies g total min_armies max_armies children ≤ max_armies ∧
    bonus_armies g total min_armies max_armies children =
      max (truncTowardZero
        (get_score total (bonus_children_set children).card
          ((bonus_adjacents_set g children \
            bonus_children_set children).card) * (max_armies : ℚ)))
        min_armies := by
  set score := get_score total (bonus_children_set children).card
    ((bonus_adjacents_set g children \ bonus_children_set children).card)
    with hscore
  have hs0 : 0 ≤ score := get_score_nonneg _ _ _
  have hs1 : score ≤ 1 := get_score_le_one _ _ _ hc
  have hmax0 : (0 : ℤ) ≤ max_armies := h0.trans h1
  have hq0 : (0 : ℚ) ≤ score * (max_armies : ℚ) := by positivity
  have hq1 : score * (max_armies : ℚ) ≤ (max_armies : ℚ) := by
    have hm : (0 : ℚ) ≤ (max_armies : ℚ) := by exact_mod_cast hmax0
    nlinarith
  have htr : truncTowardZero (score * (max_armies : ℚ)) =
      ⌊score * (max_armies : ℚ)⌋ := by
    unfold truncTowardZero
    rw [if_pos hq0]
  have hrl : 0 ≤ ⌊score * (max_armies : ℚ)⌋ := by
    apply Int.le_floor.mpr
    rw [Int.cast_zero]
    linarith
  have hru : ⌊score * (max_armies : ℚ)⌋ ≤ max_armies := by
    apply Int.floor_le_iff.mpr
    linarith
  have harmy : bonus_armies g total min_armies max_armies children =
      max (truncTowardZero (score * (max_armies : ℚ))) min_armies := rfl
  refine ⟨?_, ?_, ?_⟩
  · rw [harmy]
    exact le_max_right _ _
  · rw [harmy]
    apply max_le
    · rw [htr]
      exact hru
    · exact h1
  · rw [harmy, hscore]

/-- Witness for C6 (amended): the spec's example group on the example
graph with bounds `[1, 10]`: the army value lies in the bounds. -/
theorem bonus_armies_bounds_witness :
    1 ≤ bonus_armies exampleGraph 5 1 10 [0, 1] ∧
    bonus_armies exampleGraph 5 1 10 [0, 1] ≤ 10 :=
  ⟨(bonus_armies_bounds exampleGraph 5 1 10 [0, 1] (by decide) (by decide)
      (by decide) (by decide)).1,
    (bonus_armies_bounds exampleGraph 5 1 10 [0, 1] (by decide) (by decide)
      (by decide) (by decide)).2.1⟩

/- ## Sweep-line side test and segment intersection test
(src/main/functions/detail/polylabel.hpp, sweep part)

Coordinates are modelled exactly over `ℚ` (the source instantiates the
templates with integer or floating coordinates; the `float` casts of
`l_sign`/`r_sign` are modelled as exact). -/

structure Pt where
  x : ℚ
  y : ℚ
deriving DecidableEq

/-- `functions::detail::distance(p, s1, s2)` exactly as written in the
source: `(s1.x - p.x) * (s2.y - p.y) - (s2.x - p.x) * (s1.x - p.y)`.
The last factor reads `s1.x() - p.y()` in the source. -/
def distance (p s1 s2 : Pt) : ℚ :=
  (s1.x - p.x) * (s2.y - p.y) - (s2.x - p.x) * (s1.x - p.y)

/-- Modelled from the spec (and from the `distance` helper's own doc
comment): the signed cross product of `(s1 − p)` and `(s2 − p)`
(positive = left of the segment, negative = right, zero = on the line). -/
def crossSign (p s1 s2 : Pt) : ℚ :=
  (s1.x - p.x) * (s2.y - p.y) - (s2.x - p.x) * (s1.y - p.y)

/-- A normalized active segment of the sweep line (`SLSegment`). -/
structure SLSegment where
  edge : ℕ
  left : Pt
  right : Pt
deriving DecidableEq

/-- `functions::detail::intersect`: false if the two segments share any
endpoint; false if the endpoints of one segment have a strictly positive
product of `distance` signs relative to the other; true otherwise. -/
def intersect (s1 s2 : SLSegment) : Bool :=
  if s1.left = s2.left ∨ s1.right = s2.right ∨ s1.left = s2.right ∨
      s1.right = s2.left then
    false
  else if distance s1.left s1.right s2.left *
      distance s1.left s1.right s2.right > 0 then
    false
  else if distance s2.left s2.right s1.left *
      distance s2.left s2.right s1.right > 0 then
    false
  else
    true

/-- The crossing criterion the claim states: the two endpoints of each
segment lie on opposite or touching sides of the other segment's line,
sides given by the true signed cross products. -/
def intersect_claimed (s1 s2 : SLSegment) : Bool :=
  if crossSign s1.left s1.right s2.left *
        crossSign s1.left s1.right s2.right ≤ 0 ∧
      crossSign s2.left s2.right s1.left *
        crossSign s2.left s2.right s1.right ≤ 0 then
    true
  else
    false

/- ## Pole-of-inaccessibility search
(src/main/functions/detail/polylabel.hpp)

The `double` constant `SQRT_TWO = std::sqrt(2)` is modelled by the exact
rational value of that `double`.  The helper `distance_to_polygon` is not
part of the sources; the search is therefore parametrized by an arbitrary
distance oracle `d : Pt → ℚ`. -/

/-- The exact rational value of the `double` `std::sqrt(2)`. -/
def SQRT_TWO : ℚ := 6369051672525773 / 4503599627370496

/-- A search cell: center, half-size and the signed distance of the
center (`distance_to_polygon(center, polygon)`). -/
structure Cell where
  center : Pt
  half : ℚ
  distance : ℚ

/-- The `max` member set by the `Cell` constructor:
`distance + half * SQRT_TWO`. -/
def Cell.maxDist (c : Cell) : ℚ := c.distance + c.half * SQRT_TWO

/-- The `Cell` constructor, with `d` standing for
`distance_to_polygon(·, polygon)` (modelled from the spec: that helper is
not under src/). -/
def mkCell (d : Pt → ℚ) (center : Pt) (half : ℚ) : Cell :=
  ⟨center, half, d center⟩

/-- An axis-aligned rectangle (envelope). -/
structure Rect where
  min : Pt
  max : Pt

def Rect.width (r : Rect) : ℚ := r.max.x - r.min.x

def Rect.height (r : Rect) : ℚ := r.max.y - r.min.y

/-- Modelled from the spec: `envelope(polygon)` (not under src/) — the
axis-aligned bounding rectangle of the polygon's outer ring. -/
def envelope (outer : List Pt) : Rect :=
  match outer with
  | [] => ⟨⟨0, 0⟩, ⟨0, 0⟩⟩
  | p :: ps =>
    ⟨⟨ps.foldl (fun a q => min a q.x) p.x, ps.foldl (fun a q => min a q.y) p.y⟩,
     ⟨ps.foldl (fun a q => max a q.x) p.x, ps.foldl (fun a q => max a q.y) p.y⟩⟩

/-- Modelled from the spec: `center(rectangle).first` (not under src/) —
the center point of the bounding rectangle. -/
def rectCenter (r : Rect) : Pt :=
  ⟨(r.min.x + r.max.x) / 2, (r.min.y + r.max.y) / 2⟩

/-- `functions::detail::get_centroid`: signed-area-weighted centroid of
the outer ring as a half-0 cell, falling back to the first vertex when
the accumulated area is not positive. -/
def get_centroid (d : Pt → ℚ) (outer : List Pt) : Cell :=
  match outer with
  | [] => mkCell d ⟨0, 0⟩ 0
  | p0 :: _ =>
    let pairs := outer.zip (outer.getLastD p0 :: outer.dropLast)
    let f := fun (lr : Pt × Pt) => lr.1.x * lr.2.y - lr.2.x * lr.1.y
    let area := (pairs.map (fun lr => 3 * f lr)).sum
    let cx := (pairs.map (fun lr => (lr.1.x + lr.2.x) * f lr)).sum
    let cy := (pairs.map (fun lr => (lr.1.y + lr.2.y) * f lr)).sum
    if area > 0 then mkCell d ⟨cx / area, cy / area⟩ 0
    else mkCell d p0 0

/-- The initial tiling of the envelope: cells of size `cell_size` with
centers offset by `half`, for `x` (resp. `y`) starting at the envelope
minimum and stepping by `cell_size` while `< max`. -/
def initCells (d : Pt → ℚ) (env : Rect) (cell_size half : ℚ) : List Cell :=
  ((List.range (Int.toNat ⌈env.width / cell_size⌉)).map (fun i =>
    (List.range (Int.toNat ⌈env.height / cell_size⌉)).map (fun j =>
      mkCell d ⟨env.min.x + i * cell_size + half,
                env.min.y + j * cell_size + half⟩ half))).flatten

/-- Pop a cell with the largest `max` from the queue (the
`std::priority_queue` ordered by `a.max < b.max`), returning it together
with the remaining queue. -/
def popMax : List Cell → Option (Cell × List Cell)
  | [] => none
  | c :: rest =>
    match popMax rest with
    | none => some (c, [])
    | some (m, r) =>
      if Cell.maxDist m > Cell.maxDist c then some (m, c :: r)
      else some (c, rest)

/-- The best-candidate update: the popped cell becomes the best cell when
its distance exceeds the current best distance. -/
def stepBest (cell best : Cell) : Cell :=
  if cell.distance > best.distance then cell else best

/-- The four half-size children of a cell pushed on subdivision. -/
def subdivide (d : Pt → ℚ) (cell : Cell) : List Cell :=
  [mkCell d ⟨cell.center.x + cell.half / 2, cell.center.y + cell.half / 2⟩
      (cell.half / 2),
   mkCell d ⟨cell.center.x + cell.half / 2, cell.center.y - cell.half / 2⟩
      (cell.half / 2),
   mkCell d ⟨cell.center.x - cell.half / 2, cell.center.y + cell.half / 2⟩
      (cell.half / 2),
   mkCell d ⟨cell.center.x - cell.half / 2, cell.center.y - cell.half / 2⟩
      (cell.half / 2)]

/-- The main search loop of `polylabel`, with explicit fuel: pop the most
promising cell, update the best candidate, prune when
`cell.max - best.distance ≤ precision`, otherwise subdivide; when the
queue is empty return the best candidate's center and distance. -/
def polylabelLoop (d : Pt → ℚ) (precision : ℚ) :
    ℕ → List Cell → Cell → Option (Pt × ℚ)
  | 0, _, _ => none
  | n + 1, queue, best =>
    match popMax queue with
    | none => some (best.center, best.distance)
    | some (cell, rest) =>
      if Cell.maxDist cell - (stepBest cell best).distance ≤ precision then
        polylabelLoop d precision n rest (stepBest cell best)
      else
        polylabelLoop d precision n (subdivide d cell ++ rest)
          (stepBest cell best)

/-- `functions::detail::polylabel`: envelope, degenerate early return,
initial tiling, the two seed candidates (ring centroid and envelope
center), then the search loop. -/
def polylabel (d : Pt → ℚ) (outer : List Pt) (precision : ℚ) (fuel : ℕ) :
    Option (Pt × ℚ) :=
  if min (envelope outer).width (envelope outer).height = 0 then
    some ((envelope outer).min, 0)
  else
    polylabelLoop d precision fuel
      (initCells d (envelope outer)
        (min (envelope outer).width (envelope outer).height)
        (min (envelope outer).width (envelope outer).height / 2))
      (stepBest (mkCell d (rectCenter (envelope outer)) 0)
        (get_centroid d outer))

/- ### Termination of the search loop

Proof apparatus: a cell of half-size `h` can be subdivided at most
`K h` times before `h * SQRT_TWO ≤ precision` forces pruning; the queue
measure `Σ 5 ^ K (half)` strictly decreases at every loop iteration. -/

theorem subdiv_exists (precision : ℚ) (hp : 0 < precision) (h : ℚ) :
    ∃ k : ℕ, h * SQRT_TWO ≤ precision * 2 ^ k := by
  obtain ⟨n, hn⟩ := exists_nat_gt (h * SQRT_TWO / precision)
  refine ⟨n, ?_⟩
  have h2 : (n : ℚ) ≤ 2 ^ n := by
    exact_mod_cast (Nat.lt_two_pow n).le
  have h3 : h * SQRT_TWO < n * precision := by
    rw [div_lt_iff₀ hp] at hn
    linarith
  nlinarith

/-- The number of subdivisions after which a cell of half-size `h` is
certainly pruned: the least `k` with `h * SQRT_TWO ≤ precision * 2 ^ k`. -/
def K (precision : ℚ) (hp : 0 < precision) (h : ℚ) : ℕ :=
  Nat.find (subdiv_exists precision hp h)

theorem K_pos (precision : ℚ) (hp : 0 < precision) (h : ℚ)
    (hs : ¬ h * SQRT_TWO ≤ precision) : K precision hp h ≠ 0 := by
  intro h0
  have h1 := (Nat.find_eq_zero (subdiv_exists precision hp h)).mp h0
  rw [pow_zero, mul_one] at h1
  exact hs h1

theorem K_half (precision : ℚ) (hp : 0 < precision) (h : ℚ)
    (hs : ¬ h * SQRT_TWO ≤ precision) :
    K precision hp (h / 2) = K precision hp h - 1 := by
  have hpos : K precision hp h ≠ 0 := K_pos precision hp h hs
  obtain ⟨m, hm⟩ : ∃ m, K precision hp h = m + 1 :=
    ⟨K precision hp h - 1,
      (Nat.succ_pred_eq_of_pos (Nat.pos_of_ne_zero hpos)).symm⟩
  have hspec : h * SQRT_TWO ≤ precision * 2 ^ (m + 1) := by
    have h0 := Nat.find_spec (subdiv_exists precision hp h)
    rwa [show Nat.find (subdiv_exists precision hp h) = m + 1 from hm] at h0
  rw [hm, Nat.add_sub_cancel, K, Nat.find_eq_iff]
  constructor
  · have heq : precision * 2 ^ (m + 1) = 2 * (precision * 2 ^ m) := by
      rw [pow_succ]
      ring
    have h2 : h / 2 * SQRT_TWO = h * SQRT_TWO / 2 := by ring
    rw [h2]
    rw [heq] at hspec
    linarith
  · intro k hk hc
    have hmin := Nat.find_min (subdiv_exists precision hp h)
      (show k + 1 < K precision hp h by omega)
    apply hmin
    have heq : precision * 2 ^ (k + 1) = 2 * (precision * 2 ^ k) := by
      rw [pow_succ]
      ring
    have h2 : h * SQRT_TWO = 2 * (h / 2 * SQRT_TWO) := by ring
    rw [h2, heq]
    linarith

/-- The termination measure of a queue. -/
def queueMeasure (precision : ℚ) (hp : 0 < precision)
    (queue : List Cell) : ℕ :=
  (queue.map (fun c => 5 ^ K precision hp c.half)).sum

theorem popMax_eq_none (l : List Cell) : popMax l = none ↔ l = [] := by
  cases l with
  | nil => simp [popMax]
  | cons c rest =>
    rw [popMax]
    cases h : popMax rest with
    | none => simp
    | some mr =>
      obtain ⟨m, r⟩ := mr
      simp only
      split <;> simp

theorem popMax_perm (l : List Cell) (c : Cell) (r : List Cell)
    (h : popMax l = some (c, r)) : l.Perm (c :: r) := by
  induction l generalizing c r with
  | nil => simp [popMax] at h
  | cons a rest ih =>
    rw [popMax] at h
    cases hrest : popMax rest with
    | none =>
      rw [hrest] at h
      have hnil : rest = [] := (popMax_eq_none rest).mp hrest
      subst hnil
      rw [Option.some.injEq, Prod.mk.injEq] at h
      obtain ⟨rfl, rfl⟩ := h
      exact List.Perm.refl _
    | some mr =>
      obtain ⟨m, r0⟩ := mr
      rw [hrest] at h
      simp only at h
      by_cases hcmp : Cell.maxDist m > Cell.maxDist a
      · rw [if_pos hcmp, Option.some.injEq, Prod.mk.injEq] at h
        obtain ⟨rfl, rfl⟩ := h
        have hperm := ih m r0 hrest
        exact (hperm.cons a).trans (List.Perm.swap m a r0)
      · rw [if_neg hcmp, Option.some.injEq, Prod.mk.injEq] at h
        obtain ⟨rfl, rfl⟩ := h
        exact List.Perm.refl _

theorem polylabelLoop_succ (d : Pt → ℚ) (precision : ℚ) (n : ℕ)
    (queue : List Cell) (best : Cell) :
    polylabelLoop d precision (n + 1) queue best =
      match popMax queue with
      | none => some (best.center, best.distance)
      | some (cell, rest) =>
        if Cell.maxDist cell - (stepBest cell best).distance ≤ precision then
          polylabelLoop d precision n rest (stepBest cell best)
        else
          polylabelLoop d precision n (subdivide d cell ++ rest)
            (stepBest cell best) := rfl

theorem polylabelLoop_total (d : Pt → ℚ) (precision : ℚ)
    (hp : 0 < precision) :
    ∀ (n : ℕ) (queue : List Cell) (best : Cell),
      queueMeasure precision hp queue < n →
      (polylabelLoop d precision n queue best).isSome = true := by
  intro n
  induction n with
  | zero =>
    intro queue best h
    exact absurd h (Nat.not_lt_zero _)
  | succ n ih =>
    intro queue best hm
    rw [polylabelLoop_succ]
    cases hpop : popMax queue with
    | none => simp
    | some cr =>
      obtain ⟨cell, rest⟩ := cr
      have hperm := popMax_perm queue cell rest hpop
      have hsum : queueMeasure precision hp queue =
          5 ^ K precision hp cell.half + queueMeasure precision hp rest := by
        unfold queueMeasure
        rw [List.Perm.sum_eq (hperm.map _)]
        simp
      simp only
      by_cases hcond :
          Cell.maxDist cell - (stepBest cell best).distance ≤ precision
      · rw [if_pos hcond]
        apply ih
        have h1 : 1 ≤ 5 ^ K precision hp cell.half :=
          Nat.one_le_pow _ _ (by norm_num)
        omega
      · rw [if_neg hcond]
        apply ih
        have hstep : cell.distance ≤ (stepBest cell best).distance := by
          unfold stepBest
          split
          · exact le_refl _
          · linarith [not_lt.mp (by assumption : ¬ cell.distance > best.distance)]
        have hs : ¬ cell.half * SQRT_TWO ≤ precision := by
          intro hcontra
          apply hcond
          have hmax : Cell.maxDist cell =
              cell.distance + cell.half * SQRT_TWO := rfl
          linarith
        have hk := K_half precision hp cell.half hs
        have hkpos := K_pos precision hp cell.half hs
        have hnew : queueMeasure precision hp (subdivide d cell ++ rest) =
            4 * 5 ^ K precision hp (cell.half / 2) +
              queueMeasure precision hp rest := by
          unfold queueMeasure subdivide
          simp [mkCell]
          ring
        have hpow : 5 ^ K precision hp cell.half =
            5 * 5 ^ (K precision hp cell.half - 1) := by
          obtain ⟨m, hm⟩ : ∃ m, K precision hp cell.half = m + 1 :=
            ⟨K precision hp cell.half - 1,
              (Nat.succ_pred_eq_of_pos (Nat.pos_of_ne_zero hkpos)).symm⟩
          rw [hm, Nat.add_sub_cancel, pow_succ, Nat.mul_comm]
        have h1 : 1 ≤ 5 ^ (K precision hp cell.half - 1) :=
          Nat.one_le_pow _ _ (by norm_num)
        rw [hnew, hk]
        omega

/-- **C4** — For every polygon whose bounding rectangle has both
dimensions positive and every precision `ε > 0` (and any distance
oracle), the polylabel search terminates: some finite fuel suffices for
the loop to empty its queue and return a result. -/
theorem polylabel_terminates (d : Pt → ℚ) (outer : List Pt)
    (precision : ℚ) (hw : 0 < (envelope outer).width)
    (hh : 0 < (envelope outer).height) (hp : 0 < precision) :
    ∃ (fuel : ℕ) (r : Pt × ℚ), polylabel d outer precision fuel = some r := by
  have hcs : ¬ min (envelope outer).width (envelope outer).height = 0 :=
    ne_of_gt (lt_min hw hh)
  refine ⟨queueMeasure precision hp
    (initCells d (envelope outer)
      (min (envelope outer).width (envelope outer).height)
      (min (envelope outer).width (envelope outer).height / 2)) + 1, ?_⟩
  have hloop := polylabelLoop_total d precision hp _
    (initCells d (envelope outer)
      (min (envelope outer).width (envelope outer).height)
      (min (envelope outer).width (envelope outer).height / 2))
    (stepBest (mkCell d (rectCenter (envelope outer)) 0)
      (get_centroid d outer))
    (Nat.lt_succ_self _)
  obtain ⟨r, hr⟩ := Option.isSome_iff_exists.mp hloop
  refine ⟨r, ?_⟩
  unfold polylabel
  rw [if_neg hcs]
  exact hr

/-- Witness for C4: the unit square with the zero distance oracle and
precision `1` terminates. -/
theorem polylabel_terminates_witness :
    ∃ (fuel : ℕ) (r : Pt × ℚ),
      polylabel (fun _ => 0) [⟨0, 0⟩, ⟨1, 0⟩, ⟨1, 1⟩, ⟨0, 1⟩] 1 fuel =
        some r :=
  polylabel_terminates (fun _ => 0) [⟨0, 0⟩, ⟨1, 0⟩, ⟨1, 1⟩, ⟨0, 1⟩] 1
    (by norm_num [envelope, Rect.width])
    (by norm_num [envelope, Rect.height])
    (by norm_num)

/-- **C9** — For every polygon whose bounding rectangle has a zero
dimension, `polylabel` returns the rectangle's minimum corner with
distance `0`, without entering the search loop (for any fuel, any
precision and any distance oracle). -/
theorem polylabel_degenerate (d : Pt → ℚ) (outer : List Pt)
    (precision : ℚ) (fuel : ℕ)
    (h : min (envelope outer).width (envelope outer).height = 0) :
    polylabel d outer precision fuel = some ((envelope outer).min, 0) := by
  unfold polylabel
  rw [if_pos h]

/-- Witness for C9: a degenerate 4-point polygon with zero width and
height returns its envelope minimum corner with distance `0`. -/
theorem polylabel_degenerate_witness :
    polylabel (fun _ => 0) [⟨0, 0⟩, ⟨0, 0⟩, ⟨0, 0⟩, ⟨0, 0⟩] 1 7 =
      some ((envelope [⟨0, 0⟩, ⟨0, 0⟩, ⟨0, 0⟩, ⟨0, 0⟩]).min, 0) :=
  polylabel_degenerate (fun _ => 0) [⟨0, 0⟩, ⟨0, 0⟩, ⟨0, 0⟩, ⟨0, 0⟩] 1 7
    (by simp [envelope, Rect.width, Rect.height])

/-- **C2** — failing input for the side test: for
`s1 = (0,0)–(4,0)` and `s2 = (1,1)–(2,2)` (normalized, no shared
endpoint), both endpoints of `s2` lie strictly left of `s1`'s line (true
cross products `4` and `8`), so the claimed criterion reports no
crossing; the code's `intersect` nevertheless returns `true`, because the
last factor of `distance` reads `s1.x() - p.y()` where the cross product
it is documented to compute requires `s1.y() - p.y()`. -/
theorem intersect_code_divergence :
    intersect ⟨0, ⟨0, 0⟩, ⟨4, 0⟩⟩ ⟨1, ⟨1, 1⟩, ⟨2, 2⟩⟩ = true ∧
    intersect_claimed ⟨0, ⟨0, 0⟩, ⟨4, 0⟩⟩ ⟨1, ⟨1, 1⟩, ⟨2, 2⟩⟩ = false ∧
    crossSign ⟨0, 0⟩ ⟨4, 0⟩ ⟨1, 1⟩ = 4 ∧
    crossSign ⟨0, 0⟩ ⟨4, 0⟩ ⟨2, 2⟩ = 8 := by
  refine ⟨?_, ?_, ?_, ?_⟩
  · norm_num [intersect, distance, Pt.mk.injEq]
  · norm_num [intersect_claimed, crossSign, Pt.mk.injEq]
  · norm_num [crossSign]
  · norm_num [crossSign]

/-- **C7** — Two active segments that share at least one endpoint (in any
of the four left/right combinations) never intersect according to the
code's test; this is the first check of `intersect`. -/
theorem intersect_shared_endpoint (s1 s2 : SLSegment)
    (h : s1.left = s2.left ∨ s1.right = s2.right ∨ s1.left = s2.right ∨
      s1.right = s2.left) :
    intersect s1 s2 = false := by
  unfold intersect
  rw [if_pos h]

/-- Witness for C7: two consecutive ring edges sharing the vertex
`(1,0)` do not report a crossing. -/
theorem intersect_shared_endpoint_witness :
    intersect ⟨0, ⟨0, 0⟩, ⟨1, 0⟩⟩ ⟨1, ⟨1, 0⟩, ⟨2, 1⟩⟩ = false :=
  intersect_shared_endpoint ⟨0, ⟨0, 0⟩, ⟨1, 0⟩⟩ ⟨1, ⟨1, 0⟩, ⟨2, 1⟩⟩
    (Or.inr (Or.inr (Or.inr rfl)))

/-- Witness for C3 (amended): for the insertion sequence
`[(0,1), (1,2)]`, the reverse edge `(1,0)` is contained and the edge
count is `2`. -/
theorem insert_edge_invariants_witness :
    contains_edge (buildGraph [(0, 1), (1, 2)]) (1, 0) = true ∧
    edge_count (buildGraph [(0, 1), (1, 2)]) = 2 := by
  constructor
  · exact ((insert_edge_invariants [(0, 1), (1, 2)]).1 (0, 1)
      (by decide)).2
  · have h := (insert_edge_invariants [(0, 1), (1, 2)]).2.2 (by decide)
    rw [h]
    decide
